import Mathlib

/-!
# Verification of the CanvasPads/Ribbon lexer / parser / diagnostic pipeline

Shallow embedding of the `shigure-parser` tokenizer (`lang/tokenizer.rs`),
the module parser (`lang/parser.rs`), the AST types (`lang/ast.rs`,
`lang/ast/item.rs`) and the diagnostic position index (`shigure-log/src/lib.rs`).

Modelling conventions:
* The Rust code iterates `Chars<'a>`; inputs are modelled as `List Char` and
  `current_idx` counts characters, exactly as the Rust cursor does.
* Rust's Unicode `char::is_alphabetic` / `char::is_whitespace` are modelled by
  Lean's ASCII `Char.isAlpha` / `Char.isWhitespace`; every concrete input used
  in a theorem below is ASCII, where the two notions agree (the lone non-ASCII
  character used, inside a string literal, is never classified).
* Loops are written with an explicit fuel argument so that every definition is
  a computable structural recursion; every caller passes fuel strictly larger
  than the number of remaining loop iterations (`rem t + 1`), so the fuel-zero
  branch is unreachable and mirrors the corresponding loop-exit arm.
* `Tokenizer::new` panics on the empty string; it is modelled as returning
  `Option`, with `none` for the panic.  The body of
  `Parser::expect_structured`'s `BraceLeft` arm is `loop { consume }` with no
  exit (Rust type `!`); parser results live in `Option (PResult _)` with
  `none` marking that divergence.
-/

namespace Ribbon

/-! ## `lang/ast.rs` and `lang/ast/item.rs`: token and node types -/

/-- `TokenLoc` from `ast.rs`: start index and length of a token. -/
structure TokenLoc where
  starts_at : Nat
  len : Nat
deriving DecidableEq, Repr

/-- `TokenLiteral` from `ast.rs`. -/
inductive TokenLiteral where
  | NumberLiteral (s : String)
  | StringLiteral (s : String)
deriving DecidableEq, Repr

/-- `TokenContent` from `ast.rs`. -/
inductive TokenContent where
  | Anchor (s : String)
  | Identifier (s : String)
  | Literal (l : TokenLiteral)
  | ParenthesisLeft
  | ParenthesisRight
  | BraceLeft
  | BraceRight
  | SquareBracketLeft
  | SquareBracketRight
  | TagAngleBracketLeft
  | TagAngleClosingLeft
  | TagAngleSelfClosingRight
  | TagAngleBracketRight
  | AddOp
  | AssignmentOp
  | BitwiseAndOp
  | As
  | Const
  | Effect
  | Else
  | Emits
  | FnKeyword
  | For
  | FromKeyword
  | If
  | Import
  | Let
  | Nil
  | Type
  | Use
  | View
  | When
  | With
  | Pub
deriving DecidableEq, Repr

/-- The reserved-word table of `impl TryFrom<&str> for TokenContent`
(`ast.rs`), one entry per `match` arm, in source order. -/
def reservedTable : List (String × TokenContent) :=
  [("</", .TagAngleClosingLeft),
   ("/>", .TagAngleSelfClosingRight),
   ("as", .As),
   ("const", .Const),
   ("effect", .Effect),
   ("else", .Else),
   ("emits", .Emits),
   ("fn", .FnKeyword),
   ("for", .For),
   ("from", .FromKeyword),
   ("if", .If),
   ("import", .Import),
   ("let", .Let),
   ("nil", .Nil),
   ("type", .Type),
   ("use", .Use),
   ("view", .View),
   ("when", .When),
   ("with", .With),
   ("pub", .Pub)]

/-- `impl TryFrom<&str> for TokenContent` (`ast.rs`): the word is matched
against the spellings of `reservedTable` (the keys are pairwise distinct, so
first-match lookup is exactly the Rust `match`). -/
def TokenContent.tryFromStr (word : String) : Option TokenContent :=
  (reservedTable.find? (fun e => e.1 == word)).map (fun e => e.2)

/-- `Token` from `ast.rs`. -/
structure Token where
  loc : TokenLoc
  con : TokenContent
deriving DecidableEq, Repr

/-- `TokenizerErr` from `tokenizer.rs`.  Note: the variants are fieldless in
the source; no location is carried (relevant to claim C4). -/
inductive TokenizerErr where
  | UnterminatedStringLiteral
  | UnexpectedToken
  | EmptyElementIdentifier
  | InvalidElementIdentifier
deriving DecidableEq, Repr

/-- `TokenResult = Result<Token, TokenizerErr>` from `tokenizer.rs`. -/
inductive TokenResult where
  | ok (tok : Token)
  | err (e : TokenizerErr)
deriving DecidableEq, Repr

/-- `Loc` from `ast/item.rs`: half-open node range. -/
structure Loc where
  start : Nat
  stop : Nat
deriving DecidableEq, Repr

/-- `impl From<TokenLoc> for Loc` from `ast/item.rs`. -/
def TokenLoc.toLoc (l : TokenLoc) : Loc :=
  ⟨l.starts_at, l.starts_at + l.len⟩

/-- `NodeIdentifier` from `ast/item.rs`. -/
structure NodeIdentifier where
  value : String
  loc : Loc
deriving DecidableEq, Repr

/-- `NodeStructured` from `ast/item.rs`. -/
structure NodeStructured where
  loc : Loc
deriving DecidableEq, Repr

/-- `NodeStringLiteral` from `ast/item.rs`. -/
structure NodeStringLiteral where
  loc : Loc
  value : String
deriving DecidableEq, Repr

/-- `NodeNumberLiteral` from `ast/item.rs`. -/
structure NodeNumberLiteral where
  loc : Loc
deriving DecidableEq, Repr

/-- `NodeParameter` from `ast/item.rs`. -/
structure NodeParameter where
  loc : Loc
deriving DecidableEq, Repr

/-- `NodeAssignmentOp` from `ast/item.rs`. -/
structure NodeAssignmentOp where
  loc : Loc
deriving DecidableEq, Repr

/-- `NodeValue` from `ast/item.rs` (the `Array` variant nests lists of values). -/
inductive NodeValue where
  | Structured (s : NodeStructured)
  | Array (values : List NodeValue)
  | StringLiteral (s : NodeStringLiteral)
  | NumberLiteral (n : NodeNumberLiteral)
  | Identifier (i : NodeIdentifier)
  | Block

/-- `NodeConst` from `ast/item.rs`. -/
structure NodeConst where
  name : NodeIdentifier
  loc : Loc
deriving DecidableEq, Repr

/-- `NodeView` from `ast/item.rs`. -/
structure NodeView where
  loc : Loc
deriving DecidableEq, Repr

/-- `NodeScoped` from `ast/item.rs`. -/
inductive NodeScoped where
  | Const (c : NodeConst)
  | View (v : NodeView)
deriving DecidableEq, Repr

/-- `NodeModule` from `ast/item.rs`. -/
structure NodeModule where
  loc : Loc
  name : String
  nodes : List NodeScoped
deriving DecidableEq, Repr

/-- `NodeFile` from `ast/item.rs`. -/
structure NodeFile where
  loc : Loc
  name : String
  modules : List NodeModule
deriving DecidableEq, Repr

/-! ## `lang/tokenizer.rs`: the lexer -/

/-- `MAX_IDX_VALUE` (`u32::MAX`) from `tokenizer.rs`. -/
def MAX_IDX_VALUE : Nat := 4294967295

/-- The `Tokenizer` struct from `tokenizer.rs`: remaining iterator, pushback
buffer, cursor counters, current character. -/
structure Tokenizer where
  itr : List Char
  pending : Option Token
  current_idx : Nat
  full_idx_count : Nat
  current : Option Char
deriving DecidableEq, Repr

namespace Tokenizer

/-- `Tokenizer::new`: panics (modelled as `none`) on empty input. -/
def new (input : List Char) : Option Tokenizer :=
  match input with
  | [] => none
  | char0 :: rest => some ⟨rest, none, 0, 0, some char0⟩

/-- `Tokenizer::consume_char`: step the cursor; the index wraps to `0` when it
reaches `MAX_IDX_VALUE`, bumping `full_idx_count`. -/
def consumeChar (t : Tokenizer) : Tokenizer :=
  let idx := t.current_idx + 1
  let reset := idx = MAX_IDX_VALUE
  { t with
    current_idx := if reset then 0 else idx
    full_idx_count := if reset then t.full_idx_count + 1 else t.full_idx_count
    current := t.itr.head?
    itr := t.itr.tail }

/-- Remaining unread characters (the `current` slot plus the iterator): the
loop-variant of every lexer loop. -/
def rem (t : Tokenizer) : Nat :=
  t.itr.length + (if t.current.isSome then 1 else 0)

theorem rem_consumeChar_lt (t : Tokenizer) (h : t.current.isSome) :
    rem (consumeChar t) < rem t := by
  cases t with
  | mk itr pending idx full cur =>
    cases itr <;> simp_all [rem, consumeChar, List.head?]

theorem rem_consumeChar_le (t : Tokenizer) :
    rem (consumeChar t) ≤ rem t := by
  cases t with
  | mk itr pending idx full cur =>
    cases itr <;> cases cur <;> simp [rem, consumeChar, List.head?]

/-- Loop of `Tokenizer::lex_number_literal`: collect a maximal digit run.
Returns the state, the literal and the `len` counter. -/
def lexNumberAux (fuel : Nat) (t : Tokenizer) (literal : String) (len : Nat) :
    Tokenizer × String × Nat :=
  match fuel with
  | 0 => (t, literal, len)
  | fuel + 1 =>
    match t.current with
    | some c =>
      if c.isDigit then lexNumberAux fuel (consumeChar t) (literal.push c) (len + 1)
      else (t, literal, len)
    | none => (t, literal, len)

/-- `Tokenizer::lex_number_literal`. -/
def lexNumberLiteral (t : Tokenizer) : Tokenizer × TokenResult :=
  let starts := t.current_idx
  let r := lexNumberAux (rem t + 1) t "" 0
  (r.1, .ok ⟨⟨starts, r.2.2⟩, .Literal (.NumberLiteral r.2.1)⟩)

/-- Loop of `Tokenizer::lex_string_literal`: consume then push each character;
close on `"`, fail with `UnterminatedStringLiteral` at end of input. -/
def lexStringAux (fuel : Nat) (t : Tokenizer) (literal : String) (starts : Nat) :
    Tokenizer × TokenResult :=
  match fuel with
  | 0 => (t, .err .UnterminatedStringLiteral)
  | fuel + 1 =>
    match t.current with
    | some c =>
      let t' := consumeChar t
      let lit' := literal.push c
      if c = '"' then
        (t', .ok ⟨⟨starts, t'.current_idx - starts⟩, .Literal (.StringLiteral lit')⟩)
      else lexStringAux fuel t' lit' starts
    | none => (t, .err .UnterminatedStringLiteral)

/-- `Tokenizer::lex_string_literal`. -/
def lexStringLiteral (t : Tokenizer) : Tokenizer × TokenResult :=
  let starts := t.current_idx
  if t.current = some '"' then
    lexStringAux (rem t + 1) (consumeChar t) (String.push "" '"') starts
  else (t, .err .UnexpectedToken)

/-- Loop of `Tokenizer::lex_reserved`: push alphabetic characters, returning a
keyword token as soon as the accumulated word is in the reserved table
(prefix-greedy); on a non-alphabetic character or end of input, stash the word
as a pending `Identifier` and return `none`. -/
def lexReservedAux (fuel : Nat) (t : Tokenizer) (word : String) (loc : TokenLoc) :
    Tokenizer × Option TokenResult :=
  match fuel with
  | 0 => ({ t with pending := some ⟨loc, .Identifier word⟩ }, none)
  | fuel + 1 =>
    match t.current with
    | some c =>
      if c.isAlpha then
        let word' := word.push c
        let t' := consumeChar t
        match TokenContent.tryFromStr word' with
        | some con =>
          (t', some (.ok ⟨⟨loc.starts_at, t'.current_idx - loc.starts_at + 1⟩, con⟩))
        | none => lexReservedAux fuel t' word' loc
      else ({ t with pending := some ⟨loc, .Identifier word⟩ }, none)
    | none => ({ t with pending := some ⟨loc, .Identifier word⟩ }, none)

/-- `Tokenizer::lex_reserved`. -/
def lexReserved (t : Tokenizer) : Tokenizer × Option TokenResult :=
  lexReservedAux (rem t + 1) t "" ⟨t.current_idx, 0⟩

/-- Identifier character classes of `Tokenizer::lex_identifier`:
`'a'..='z' | 'A'..='Z' | '0'..='9' | '_' | '$' | '-'`. -/
def isIdentChar (c : Char) : Bool :=
  ('a' ≤ c && c ≤ 'z') || ('A' ≤ c && c ≤ 'Z') || ('0' ≤ c && c ≤ '9') ||
    c = '_' || c = '$' || c = '-'

/-- `word.chars().last() == Some('-')`. -/
def endsDash (w : String) : Bool :=
  w.data.getLast? = some '-'

/-- Loop of `Tokenizer::lex_identifier`.  `none` in the second component is
the `Err(UnexpectedToken)` return for a word ending in `-` at a hard
terminator; whitespace and end of input break out without that check. -/
def lexIdentAux (fuel : Nat) (t : Tokenizer) (word : String) :
    Tokenizer × Option String :=
  match fuel with
  | 0 => (t, some word)
  | fuel + 1 =>
    match t.current with
    | some c =>
      if c.isWhitespace then (t, some word)
      else if isIdentChar c then lexIdentAux fuel (consumeChar t) (word.push c)
      else if endsDash word then (t, none)
      else (t, some word)
    | none => (t, some word)

/-- Body of `Tokenizer::lex_identifier` after the pending-token take: run the
loop, then set `loc.len = self.current_idx - loc.starts_at`. -/
def lexIdentifierGo (t : Tokenizer) (loc : TokenLoc) (word : String) :
    Tokenizer × TokenResult :=
  let r := lexIdentAux (rem t + 1) t word
  match r.2 with
  | none => (r.1, .err .UnexpectedToken)
  | some w =>
    (r.1, .ok ⟨⟨loc.starts_at, r.1.current_idx - loc.starts_at⟩, .Identifier w⟩)

/-- `Tokenizer::lex_identifier`: take a pending word (from `lex_reserved`) if
present, continue the run, and measure `loc.len` from the cursor. -/
def lexIdentifier (t : Tokenizer) : Tokenizer × TokenResult :=
  match t.pending with
  | some p =>
    match p.con with
    | .Identifier s => lexIdentifierGo { t with pending := none } p.loc s
    | _ => ({ t with pending := none }, .err .UnexpectedToken)
  | none => lexIdentifierGo t ⟨t.current_idx, 0⟩ ""

/-- `Tokenizer::lex_alphabetical_chars`. -/
def lexAlphabeticalChars (t : Tokenizer) : Tokenizer × TokenResult :=
  match lexReserved t with
  | (t', some r) => (t', r)
  | (t', none) => lexIdentifier t'

/-- Loop of `Tokenizer::lex_anchor`: `while let Some(c) = self.advance()`.
Pushes alphabetic characters; `loc.len` is bumped after each push, and `break`
skips the bump. -/
def lexAnchorAux (fuel : Nat) (t : Tokenizer) (ident : String) (len : Nat) :
    Tokenizer × String × Nat :=
  match fuel with
  | 0 => (t, ident, len)
  | fuel + 1 =>
    let t' := consumeChar t
    match t'.current with
    | some c =>
      if c.isWhitespace then (t', ident, len)
      else if c.isAlpha then lexAnchorAux fuel t' (ident.push c) (len + 1)
      else (t', ident, len)
    | none => (t', ident, len)

/-- `Tokenizer::lex_anchor`.  Note that `#` itself is pushed into `identifier`
before the loop, so the `identifier.is_empty()` check can never fire. -/
def lexAnchor (t : Tokenizer) : Tokenizer × TokenResult :=
  match t.current with
  | some c =>
    if c ≠ '#' then (t, .err .InvalidElementIdentifier)
    else
      let starts := t.current_idx
      let ident0 := String.push "" c
      let r := lexAnchorAux (rem t + 1) t ident0 1
      if r.2.1.isEmpty then (r.1, .err .EmptyElementIdentifier)
      else (r.1, .ok ⟨⟨starts, r.2.2⟩, .Anchor r.2.1⟩)
  | none => (t, .err .InvalidElementIdentifier)

/-- `Tokenizer::set_pending_or_err` combined with `set_pending`: store an `Ok`
token in the pushback slot, or surface the error. -/
def setPendingOrErr (t : Tokenizer) (r : TokenResult) :
    Tokenizer × Option TokenizerErr :=
  match r with
  | .ok tok => ({ t with pending := some tok }, none)
  | .err e => (t, some e)

/-- `Tokenizer::tokenize_char`: dispatch on the current character.  Characters
with no arm (`=`, `{`, `}`, `(`, `)` and everything else) yield
`UnexpectedToken` without consuming. -/
def tokenizeChar (t : Tokenizer) (c : Char) : Tokenizer × Option TokenizerErr :=
  if ('a' ≤ c && c ≤ 'z') || ('A' ≤ c && c ≤ 'Z') then
    let r := lexAlphabeticalChars t
    setPendingOrErr r.1 r.2
  else if c = '_' || c = '$' then
    let r := lexIdentifier t
    setPendingOrErr r.1 r.2
  else if '0' ≤ c && c ≤ '9' then
    let r := lexNumberLiteral t
    setPendingOrErr r.1 r.2
  else if c = '<' then
    let loc : TokenLoc := ⟨t.current_idx, 1⟩
    let t' := consumeChar t
    ({ t' with pending := some ⟨loc, .TagAngleBracketLeft⟩ }, none)
  else if c = '>' then
    let loc : TokenLoc := ⟨t.current_idx, 1⟩
    let t' := consumeChar t
    ({ t' with pending := some ⟨loc, .TagAngleBracketRight⟩ }, none)
  else if c = '/' then
    let t' := consumeChar t
    match t'.current with
    | some c2 =>
      if c2 = '>' then
        let loc : TokenLoc := ⟨t'.current_idx - 1, 2⟩
        let t'' := consumeChar t'
        ({ t'' with pending := some ⟨loc, .TagAngleSelfClosingRight⟩ }, none)
      else (t', some .UnexpectedToken)
    | none => (t', some .UnexpectedToken)
  else if c = '"' then
    let r := lexStringLiteral t
    setPendingOrErr r.1 r.2
  else if c = '#' then
    let r := lexAnchor t
    setPendingOrErr r.1 r.2
  else (t, some .UnexpectedToken)

/-- Loop of `Tokenizer::next`: skip whitespace, lex one token, hand out the
pending token.  The `none` inner result on a successful `tokenize_char` is the
`panic!("no pending token")` arm, unreachable because every `Ok` path of
`tokenize_char` fills the pending slot. -/
def nextAux (fuel : Nat) (t : Tokenizer) : Tokenizer × Option TokenResult :=
  match fuel with
  | 0 => (t, none)
  | fuel + 1 =>
    match t.current with
    | some c =>
      if c.isWhitespace then nextAux fuel (consumeChar t)
      else
        let r := tokenizeChar t c
        match r.2 with
        | none =>
          match r.1.pending with
          | some tok => ({ r.1 with pending := none }, some (.ok tok))
          | none => (r.1, none)
        | some e => (r.1, some (.err e))
    | none => (t, none)

/-- `Tokenizer::next`. -/
def next (t : Tokenizer) : Tokenizer × Option TokenResult :=
  nextAux (rem t + 1) t

end Tokenizer

/-- Drive `Tokenizer::next` to the end of input, stopping at the first error
(the documented caller obligation).  Fuel `input.length + 1` bounds the number
of tokens. -/
def tokenizeAllAux (fuel : Nat) (t : Tokenizer) : List TokenResult :=
  match fuel with
  | 0 => []
  | fuel + 1 =>
    match Tokenizer.next t with
    | (t', some (.ok tok)) => .ok tok :: tokenizeAllAux fuel t'
    | (_, some (.err e)) => [.err e]
    | (_, none) => []

/-- All tokens of an input, stopping at the first lexical error. -/
def tokenizeAll (input : List Char) : List TokenResult :=
  match Tokenizer.new input with
  | some t => tokenizeAllAux (input.length + 1) t
  | none => []

/-! ## `shigure-log/src/lib.rs`: the position index of the diagnostic reporter

`Logger` indexes the input bytes; the model uses the character list (all
inputs used in the theorems are single-byte characters). -/

namespace Logger

/-- Scan of `Logger::index_input` from `idx = 1` upward: the offsets holding a
newline character.  (`idx = 0` is never examined by the Rust loop.) -/
def nlIdxAux (l : List Char) (i : Nat) : List Nat :=
  match l with
  | [] => []
  | c :: rest =>
    if c = '\n' then i :: nlIdxAux rest (i + 1) else nlIdxAux rest (i + 1)

/-- `Logger::index_input`: `vec![0]` followed by the offsets of every `\n`
found at indices `1..len`. -/
def indexInput (input : List Char) : List Nat :=
  0 :: nlIdxAux (input.drop 1) 1

/-- Loop of `Logger::pos_to_line`: for `i in 0..index.len()-1`, return the
running line number as soon as `index[i] <= pos && index[i+1] >= pos`. -/
def posToLineAux (l : List Nat) (pos line : Nat) : Nat :=
  match l with
  | a :: b :: rest =>
    if a ≤ pos ∧ pos ≤ b then line else posToLineAux (b :: rest) pos (line + 1)
  | _ => line

/-- `Logger::pos_to_line`. -/
def posToLine (input : List Char) (pos : Nat) : Nat :=
  posToLineAux (indexInput input) pos 1

/-- The `(ypos, xpos)` pair computed inside `Logger::issue`:
`ypos = pos_to_line(pos)` and `xpos = pos - index[ypos - 1] + 1`. -/
def issuePos (input : List Char) (pos : Nat) : Nat × Nat :=
  let ypos := posToLine input pos
  (ypos, pos - (indexInput input).getD (ypos - 1) 0 + 1)

end Logger

/-! ## `lang/parser.rs`: the module-level parser

`parser.rs` references several items that are absent from the sources:
`Tokenizer::get_current_loc`, `Tokenizer::get_current_idx`,
`TokenizerErr::loc`, `Parser::expect_params`,
`Parser::try_parsing_string_literal`, `Parser::try_parsing_namespace` and the
`NodeNamespace` type.  Those are modelled from the spec below; each carries a
`Modelled from the spec:` comment. -/

/-- `ParseError` from `parser.rs`. -/
inductive ParseError where
  | TokenizeError (loc : Loc) (error : TokenizerErr)
  | SyntaxError (loc : Loc)
deriving DecidableEq, Repr

/-- `ParseResult<T>`. -/
inductive PResult (α : Type) where
  | ok (a : α)
  | error (e : ParseError)
deriving DecidableEq, Repr

/-- Modelled from the spec: `TokenizerErr::loc()` is called by
`Parser::unwrap_current`, but `TokenizerErr` in `tokenizer.rs` is a fieldless
enum and carries no location (§4.1 of the spec says each error carries the
offending `Loc`; the source cannot supply one).  Modelled as a constant
placeholder location. -/
def TokenizerErr.locModel (_ : TokenizerErr) : Loc := ⟨0, 0⟩

namespace Tokenizer

/-- Modelled from the spec: `Tokenizer::get_current_loc` is absent from the
sources (used by `Parser::unwrap_current` at end of input); modelled as the
empty range at the current cursor index. -/
def getCurrentLocModel (t : Tokenizer) : Loc := ⟨t.current_idx, t.current_idx⟩

/-- Modelled from the spec: `Tokenizer::get_current_idx` is absent from the
sources (used by `Parser::get_tokenizer_idx` for node ranges); modelled as the
current cursor index. -/
def getCurrentIdxModel (t : Tokenizer) : Nat := t.current_idx

end Tokenizer

/-- Modelled from the spec: the `NodeNamespace` type imported by `parser.rs`
is absent from `ast/item.rs`; §4.3 describes a namespace path as a chain of
identifiers. -/
structure NodeNamespaceModel where
  loc : Loc
deriving DecidableEq, Repr

/-- The `Parser` struct from `parser.rs` (the `filename` and `logger` fields
only feed the printed diagnostics and are dropped). -/
structure Parser where
  tokenizer : Tokenizer
  previous : Option TokenResult
  current : Option TokenResult
deriving DecidableEq, Repr

namespace Parser

/-- `Parser::new`: builds the tokenizer (panicking — `none` — on empty input)
and primes `current` with the first token. -/
def new (input : List Char) : Option Parser :=
  match Tokenizer.new input with
  | none => none
  | some tk =>
    let r := tk.next
    some ⟨r.1, none, r.2⟩

/-- `Parser::consume_token`. -/
def consumeToken (p : Parser) : Parser :=
  let r := p.tokenizer.next
  ⟨r.1, p.current, r.2⟩

/-- `Parser::get_tokenizer_idx`. -/
def getTokenizerIdx (p : Parser) : Nat := p.tokenizer.getCurrentIdxModel

/-- `Parser::unwrap_current` (the `Logger::issue` call is print-only and
dropped; the error values are those returned). -/
def unwrapCurrent (p : Parser) : PResult Token :=
  match p.current with
  | some (.ok tok) => .ok tok
  | some (.err e) => .error (.TokenizeError e.locModel e)
  | none => .error (.SyntaxError p.tokenizer.getCurrentLocModel)

/-- `Parser::unwrap_current_or_none`. -/
def unwrapCurrentOrNone (p : Parser) : PResult (Option Token) :=
  match p.current with
  | some (.ok tok) => .ok (some tok)
  | some (.err e) => .error (.TokenizeError e.locModel e)
  | none => .ok none

/-- `Parser::try_parsing_identifier`. -/
def tryParsingIdentifier (p : Parser) : PResult (Option NodeIdentifier) :=
  match unwrapCurrent p with
  | .error e => .error e
  | .ok tok =>
    match tok.con with
    | .Identifier idef => .ok (some ⟨idef, tok.loc.toLoc⟩)
    | _ => .ok none

/-- `Parser::expect_identifier`. -/
def expectIdentifier (p : Parser) : PResult NodeIdentifier :=
  match unwrapCurrent p with
  | .error e => .error e
  | .ok tok =>
    match tryParsingIdentifier p with
    | .error e => .error e
    | .ok (some ident) => .ok ident
    | .ok none => .error (.SyntaxError tok.loc.toLoc)

/-- `Parser::expect_assignment_op`. -/
def expectAssignmentOp (p : Parser) : PResult NodeAssignmentOp :=
  match unwrapCurrent p with
  | .error e => .error e
  | .ok tok =>
    match tok.con with
    | .AssignmentOp => .ok ⟨tok.loc.toLoc⟩
    | _ => .error (.SyntaxError tok.loc.toLoc)

/-- `Parser::expect_structured`.  The `BraceLeft` arm of the source is
`loop { self.consume_token(); }` — a loop with no `break` or `return` (Rust
type `!`), so that arm never returns; it is modelled as `none` (divergence). -/
def expectStructured (p : Parser) : Option (PResult NodeStructured) :=
  match unwrapCurrent p with
  | .error e => some (.error e)
  | .ok tok =>
    match tok.con with
    | .BraceLeft => none
    | _ => some (.error (.SyntaxError tok.loc.toLoc))

/-- Modelled from the spec: `Parser::expect_params` is absent from the
sources.  §4.3: after the binding name, "optionally expect a parameter list";
modelled as succeeding exactly on the parameter-list opener `(` (the result is
only tested for `Ok`-ness at the call site). -/
def expectParamsModel (p : Parser) : PResult NodeParameter :=
  match unwrapCurrent p with
  | .error e => .error e
  | .ok tok =>
    match tok.con with
    | .ParenthesisLeft => .ok ⟨tok.loc.toLoc⟩
    | _ => .error (.SyntaxError tok.loc.toLoc)

/-- Modelled from the spec: `Parser::try_parsing_string_literal` is absent
from the sources.  §4.3: after `import`, "expect either a string literal
(module path/URL) or a namespace path"; modelled like
`try_parsing_identifier`, matching a string-literal token without consuming. -/
def tryParsingStringLiteralModel (p : Parser) : PResult (Option NodeStringLiteral) :=
  match unwrapCurrent p with
  | .error e => .error e
  | .ok tok =>
    match tok.con with
    | .Literal (.StringLiteral s) => .ok (some ⟨tok.loc.toLoc, s⟩)
    | _ => .ok none

/-- Modelled from the spec: `Parser::try_parsing_namespace` is absent from the
sources.  §4.3 describes a namespace path as a chain of identifiers; modelled
as matching an identifier token without consuming. -/
def tryParsingNamespaceModel (p : Parser) : PResult (Option NodeNamespaceModel) :=
  match unwrapCurrent p with
  | .error e => .error e
  | .ok tok =>
    match tok.con with
    | .Identifier _ => .ok (some ⟨tok.loc.toLoc⟩)
    | _ => .ok none

/-- `Parser::expect_value`.  The fall-through arm of the source is
`Err(ParseError::SyntaxError)` without the variant's `loc` field (it does not
compile as written); per §4.3 "any other leading token is a `SyntaxError`", it
is modelled at that token's location. -/
def expectValue (p : Parser) : Option (PResult NodeValue) :=
  match unwrapCurrent p with
  | .error e => some (.error e)
  | .ok tok =>
    match tok.con with
    | .BraceLeft =>
      match expectStructured p with
      | none => none
      | some (.error e) => some (.error e)
      | some (.ok s) => some (.ok (.Structured s))
    | .Identifier _ =>
      match expectIdentifier p with
      | .error e => some (.error e)
      | .ok ident => some (.ok (.Identifier ident))
    | _ => some (.error (.SyntaxError tok.loc.toLoc))

/-- `Parser::parse_module`'s `while` loop (the `name` parameter comes from the
`parse_module("<file>".into())` call in `parse_file`; `start` is captured
before the loop).  The node list is created empty and never pushed to in the
source, so the returned module always has `nodes = []`.  Fuel makes the loop a
structural recursion; `none` is divergence (from `expect_structured`) or fuel
exhaustion. -/
def parseModule (fuel : Nat) (name : String) (start : Nat) (p : Parser) :
    Option (PResult NodeModule) :=
  match fuel with
  | 0 => none
  | fuel + 1 =>
    match unwrapCurrentOrNone p with
    | .error e => some (.error e)
    | .ok none => some (.ok ⟨⟨start, p.getTokenizerIdx⟩, name, []⟩)
    | .ok (some res) =>
      match res.con with
      | .Let =>
        let p := consumeToken p
        match expectIdentifier p with
        | .error e => some (.error e)
        | .ok _name =>
          let p := consumeToken p
          let p :=
            match expectParamsModel p with
            | .ok _ => consumeToken p
            | .error _ => p
          match expectAssignmentOp p with
          | .error e => some (.error e)
          | .ok _ =>
            let p := consumeToken p
            match expectValue p with
            | none => none
            | some (.error e) => some (.error e)
            | some (.ok _value) =>
              let p := consumeToken p
              parseModule fuel name start p
      | .Import =>
        let p := consumeToken p
        match tryParsingStringLiteralModel p with
        | .error e => some (.error e)
        | .ok (some _tok) => parseModule fuel name start p
        | .ok none =>
          match tryParsingNamespaceModel p with
          | .error e => some (.error e)
          | .ok (some _tok) => parseModule fuel name start p
          | .ok none => some (.error (.SyntaxError res.loc.toLoc))
      | .Identifier _ =>
        let p := consumeToken p
        match expectIdentifier p with
        | .error e => some (.error e)
        | .ok _ident => parseModule fuel name start p
      | _ => parseModule fuel name start (consumeToken p)

/-- `Parser::parse_file`: wraps the single module.  `end` is the tokenizer
index after `parse_module` returns, which is exactly the module's own end
offset. -/
def parseFile (fuel : Nat) (filename : String) (p : Parser) :
    Option (PResult NodeFile) :=
  let start := p.getTokenizerIdx
  match parseModule fuel "<file>" start p with
  | none => none
  | some (.error e) => some (.error e)
  | some (.ok m) => some (.ok ⟨⟨start, m.loc.stop⟩, filename, [m]⟩)

end Parser

/-- `Parser::parse_all` driven from raw input: the outer `Option` is the
`Tokenizer::new` construction panic on empty input, the inner `Option` is
divergence.  The fuel bounds the number of parse-loop iterations by the number
of tokens plus one. -/
def parseAll (filename : String) (input : List Char) :
    Option (Option (PResult NodeFile)) :=
  match Parser.new input with
  | none => none
  | some p => some (Parser.parseFile (input.length + 2) filename p)

/-! ## Classifiers and specification-side definitions used by the claims -/

/-- Whether a token content is an `Identifier`. -/
def TokenContent.isIdentTok : TokenContent → Bool
  | .Identifier _ => true
  | _ => false

/-- Whether a token content is a string literal. -/
def TokenContent.isStringLitTok : TokenContent → Bool
  | .Literal (.StringLiteral _) => true
  | _ => false

/-- Character length of the spelling of each reserved word recognizable by
`TokenContent::try_from::<&str>`; `0` on non-keyword contents. -/
def keywordLen : TokenContent → Nat
  | .TagAngleClosingLeft => 2
  | .TagAngleSelfClosingRight => 2
  | .As => 2
  | .Const => 5
  | .Effect => 6
  | .Else => 4
  | .Emits => 5
  | .FnKeyword => 2
  | .For => 3
  | .FromKeyword => 4
  | .If => 2
  | .Import => 6
  | .Let => 3
  | .Nil => 3
  | .Type => 4
  | .Use => 3
  | .View => 4
  | .When => 4
  | .With => 4
  | .Pub => 3
  | _ => 0

/-- UTF-8 byte length of a lexeme (the spec's `Loc` talks about byte offsets;
the lexer counts characters). -/
def lexemeBytes (s : String) : Nat :=
  s.data.foldl (fun n c => n + c.utf8Size) 0

/-- Specification-side count of newline characters strictly before `pos`. -/
def countNL (input : List Char) (pos : Nat) : Nat :=
  (input.take pos).countP (fun c => c == '\n')

/-- Specification-side 1-based physical line containing `pos` (a newline
belongs to the line it terminates). -/
def specLine (input : List Char) (pos : Nat) : Nat :=
  1 + countNL input pos

/-- Specification-side start offset of the physical line containing `pos`. -/
def lineStart (input : List Char) : Nat → Nat
  | 0 => 0
  | p + 1 => if input[p]? = some '\n' then p + 1 else lineStart input p

/-- Specification-side 1-based column of `pos` within its physical line. -/
def specCol (input : List Char) (pos : Nat) : Nat :=
  pos - lineStart input pos + 1

/-- The source text `let x = { }` (claim C2). -/
def letBraceInput : List Char :=
  ['l', 'e', 't', ' ', 'x', ' ', '=', ' ', Char.ofNat 123, ' ', Char.ofNat 125]

/-! ## Claim theorems -/

/-- Claim C1.  The claim states maximal-munch keyword disambiguation; the code
of `Tokenizer::lex_reserved` is prefix-greedy instead: on the maximal
identifier run `fort` (whose strict prefix `for` is reserved) it emits the
keyword token `For` after three characters and then a residual
`Identifier "t"`, not a single `Identifier "fort"`. -/
theorem claim_C1_eval :
    tokenizeAll "fort".toList =
      [.ok ⟨⟨0, 4⟩, .For⟩, .ok ⟨⟨3, 1⟩, .Identifier "t"⟩] := by
  decide

/-- Claim C2.  The claim states that `let x = { }` parses into a module with
one binding named `x`; the code's `Tokenizer::tokenize_char` has no arm for
`=` (or `{`/`}` — `TryFrom<char> for TokenContent` is never wired in), so
`parse_all` instead fails with `TokenizeError(UnexpectedToken)` when the `let`
production reaches the `=`. -/
theorem claim_C2_eval :
    parseAll "f" letBraceInput =
      some (some (.error (.TokenizeError ⟨0, 0⟩ .UnexpectedToken))) := by
  decide

/-- Claim C3, counterexample.  `42` at module scope matches no production
(`NumberLiteral` is not `let`/`import`/identifier), yet `parse_all` returns
`Ok` — the catch-all arm of `parse_module` silently consumes the token instead
of raising `SyntaxError`. -/
theorem claim_C3_cex :
    parseAll "f" "42".toList =
      some (some (.ok ⟨⟨2, 2⟩, "f", [⟨⟨2, 2⟩, "<file>", []⟩]⟩)) := by
  decide

/-- Claim C4.  `TokenizerErr` is a fieldless enum: the lexical error for an
offending `=` at offset 0 and the one for an offending `=` at offset 1 are the
very same value, carrying no `Loc` (and `parser.rs` calls the nonexistent
`TokenizerErr::loc()` to fabricate one). -/
theorem claim_C4_eval :
    tokenizeAll "=".toList = [.err .UnexpectedToken] ∧
      tokenizeAll " =".toList = [.err .UnexpectedToken] := by
  decide

/-- Claim C5.  The claim states `#` followed by no alphabetic character fails
with `EmptyElementIdentifier`; the code pushes `#` itself into the identifier
buffer before the emptiness check, so the check never fires and the bare input
`#` lexes to an `Anchor "#"` token. -/
theorem claim_C5_eval :
    tokenizeAll "#".toList = [.ok ⟨⟨0, 1⟩, .Anchor "#"⟩] := by
  decide

/-- Claim C7, counterexample.  The identifier run `x-` terminated by end of
input is returned as `Identifier "x-"` — its last character is `-` — because
`lex_identifier` only performs the trailing-dash check when the run is stopped
by a non-whitespace, non-identifier character. -/
theorem claim_C7_cex :
    tokenizeAll "x-".toList = [.ok ⟨⟨0, 2⟩, .Identifier "x-"⟩] ∧
      Tokenizer.endsDash "x-" = true := by
  decide

theorem nlIdxAux_ge (l : List Char) :
    ∀ (i x : Nat), x ∈ Logger.nlIdxAux l i → i ≤ x := by
  induction l with
  | nil => intro i x h; simp [Logger.nlIdxAux] at h
  | cons c rest ih =>
    intro i x h
    rw [Logger.nlIdxAux] at h
    by_cases hc : c = '\n'
    · rw [if_pos hc] at h
      rcases List.mem_cons.mp h with h1 | h1
      · omega
      · have := ih (i + 1) x h1; omega
    · rw [if_neg hc] at h
      have := ih (i + 1) x h; omega

theorem nlIdxAux_sorted (l : List Char) :
    ∀ (i : Nat), (Logger.nlIdxAux l i).Sorted (· < ·) := by
  induction l with
  | nil => intro i; simp [Logger.nlIdxAux]
  | cons c rest ih =>
    intro i
    rw [Logger.nlIdxAux]
    by_cases hc : c = '\n'
    · rw [if_pos hc]
      refine List.sorted_cons.mpr ⟨fun b hb => ?_, ih (i + 1)⟩
      have := nlIdxAux_ge rest (i + 1) b hb; omega
    · rw [if_neg hc]; exact ih (i + 1)

theorem nlIdxAux_countP (l : List Char) :
    ∀ (i p : Nat),
      (Logger.nlIdxAux l i).countP (fun x => decide (x < i + p)) =
        (l.take p).countP (fun c => c == '\n') := by
  induction l with
  | nil => intro i p; simp [Logger.nlIdxAux]
  | cons c rest ih =>
    intro i p
    rw [Logger.nlIdxAux]
    cases p with
    | zero =>
      simp only [List.take_zero, List.countP_nil]
      by_cases hc : c = '\n'
      · rw [if_pos hc]
        refine List.countP_eq_zero.mpr ?_
        intro a ha
        rcases List.mem_cons.mp ha with h1 | h1
        · simp [h1]
        · have := nlIdxAux_ge rest (i + 1) a h1
          simp only [decide_eq_true_eq]
          omega
      · rw [if_neg hc]
        refine List.countP_eq_zero.mpr ?_
        intro a ha
        have := nlIdxAux_ge rest (i + 1) a ha
        simp only [decide_eq_true_eq]
        omega
    | succ q =>
      have harith : i + (q + 1) = (i + 1) + q := by omega
      by_cases hc : c = '\n'
      · rw [if_pos hc]
        rw [List.countP_cons]
        have h1 := ih (i + 1) q
        simp only [harith, h1]
        simp [List.take_succ_cons, List.countP_cons, hc]
        omega
      · rw [if_neg hc]
        have h1 := ih (i + 1) q
        simp only [harith, h1]
        simp [List.take_succ_cons, List.countP_cons, hc]

theorem posToLineAux_count (l : List Nat) :
    ∀ (a pos line : Nat), (a :: l).Sorted (· < ·) → a ≤ pos →
      Logger.posToLineAux (a :: l) pos line =
        line + l.countP (fun z => decide (z < pos)) := by
  induction l with
  | nil => intro a pos line _ _; simp [Logger.posToLineAux]
  | cons b rest ih =>
    intro a pos line hs ha
    rw [Logger.posToLineAux]
    obtain ⟨hab, hs'⟩ := List.sorted_cons.mp hs
    by_cases hb : pos ≤ b
    · rw [if_pos ⟨ha, hb⟩]
      have hz : (b :: rest).countP (fun z => decide (z < pos)) = 0 := by
        refine List.countP_eq_zero.mpr ?_
        intro x hx
        obtain ⟨hbr, _⟩ := List.sorted_cons.mp hs'
        rcases List.mem_cons.mp hx with h1 | h1
        · simp only [decide_eq_true_eq]; omega
        · have := hbr x h1
          simp only [decide_eq_true_eq]; omega
      omega
    · have hcond : ¬(a ≤ pos ∧ pos ≤ b) := by intro hco; exact hb hco.2
      rw [if_neg hcond]
      have hrec := ih b pos (line + 1) hs' (by omega)
      rw [hrec, List.countP_cons]
      simp only [decide_eq_true_eq]
      rw [if_pos (by omega : b < pos)]
      omega

theorem nlIdxAux_mem_nl (l : List Char) :
    ∀ (i x : Nat), x ∈ Logger.nlIdxAux l i →
      i ≤ x ∧ x - i < l.length ∧ l[x - i]? = some '\n' := by
  induction l with
  | nil => intro i x h; simp [Logger.nlIdxAux] at h
  | cons c rest ih =>
    intro i x h
    rw [Logger.nlIdxAux] at h
    by_cases hc : c = '\n'
    · rw [if_pos hc] at h
      rcases List.mem_cons.mp h with h1 | h1
      · subst h1
        refine ⟨le_refl _, by simp, ?_⟩
        simp [hc]
      · obtain ⟨ha, hb, hg⟩ := ih (i + 1) x h1
        refine ⟨by omega, by simp; omega, ?_⟩
        have hxi : x - i = (x - (i + 1)) + 1 := by omega
        rw [hxi]
        simpa using hg
    · rw [if_neg hc] at h
      obtain ⟨ha, hb, hg⟩ := ih (i + 1) x h
      refine ⟨by omega, by simp; omega, ?_⟩
      have hxi : x - i = (x - (i + 1)) + 1 := by omega
      rw [hxi]
      simpa using hg

theorem nlIdxAux_mem_of (l : List Char) :
    ∀ (i k : Nat), k < l.length → l[k]? = some '\n' →
      (i + k) ∈ Logger.nlIdxAux l i := by
  induction l with
  | nil => intro i k hk _; simp at hk
  | cons c rest ih =>
    intro i k hk hg
    rw [Logger.nlIdxAux]
    cases k with
    | zero =>
      have hc : c = '\n' := by simpa using hg
      rw [if_pos hc]
      simp
    | succ k' =>
      have hk' : k' < rest.length := by simpa using hk
      have hg' : rest[k']? = some '\n' := by simpa using hg
      have hmem := ih (i + 1) k' hk' hg'
      have harith : i + (k' + 1) = (i + 1) + k' := by omega
      rw [harith]
      by_cases hc : c = '\n'
      · rw [if_pos hc]; exact List.mem_cons_of_mem _ hmem
      · rw [if_neg hc]; exact hmem

theorem sorted_getD_countP (l : List Nat) :
    ∀ (pos x : Nat), l.Sorted (· < ·) → x ∈ l → x < pos →
      (∀ y ∈ l, y < pos → y ≤ x) →
      l.getD (l.countP (fun z => decide (z < pos)) - 1) 0 = x := by
  induction l with
  | nil => intro pos x _ hx; simp at hx
  | cons a rest ih =>
    intro pos x hs hx hlt hmax
    obtain ⟨har, hs'⟩ := List.sorted_cons.mp hs
    rcases List.mem_cons.mp hx with h1 | h1
    · subst h1
      have hz : rest.countP (fun z => decide (z < pos)) = 0 := by
        refine List.countP_eq_zero.mpr ?_
        intro y hy
        have h2 := har y hy
        have h3 := hmax y (List.mem_cons_of_mem _ hy)
        simp only [decide_eq_true_eq]
        intro h4
        have := h3 h4
        omega
      rw [List.countP_cons, hz]
      simp only [decide_eq_true_eq]
      rw [if_pos hlt]
      simp
    · have hax : a < x := har x h1
      have hapos : a < pos := by omega
      have hcp : 0 < rest.countP (fun z => decide (z < pos)) := by
        refine List.countP_pos_iff.mpr ⟨x, h1, by simpa using hlt⟩
      rw [List.countP_cons]
      simp only [decide_eq_true_eq]
      rw [if_pos hapos]
      have hidx : rest.countP (fun z => decide (z < pos)) + 1 - 1 =
          (rest.countP (fun z => decide (z < pos)) - 1) + 1 := by omega
      rw [hidx, List.getD_cons_succ]
      exact ih pos x hs' h1 hlt (fun y hy => hmax y (List.mem_cons_of_mem _ hy))

theorem countNL_succ (input : List Char) (p : Nat) :
    countNL input (p + 1) =
      countNL input p + (if input[p]? = some '\n' then 1 else 0) := by
  unfold countNL
  rw [List.take_succ, List.countP_append]
  cases hg : input[p]? with
  | none => simp
  | some c =>
    by_cases hc : c = '\n'
    · simp [hc]
    · simp [hc]

theorem lineStart_le (input : List Char) : ∀ (pos : Nat), lineStart input pos ≤ pos := by
  intro pos
  induction pos with
  | zero => simp [lineStart]
  | succ p ih =>
    rw [lineStart]
    by_cases hg : input[p]? = some '\n'
    · rw [if_pos hg]
    · rw [if_neg hg]; omega

theorem lineStart_eq_zero (input : List Char) :
    ∀ (pos : Nat), countNL input pos = 0 → lineStart input pos = 0 := by
  intro pos
  induction pos with
  | zero => intro _; simp [lineStart]
  | succ p ih =>
    intro h
    rw [countNL_succ] at h
    rw [lineStart]
    by_cases hg : input[p]? = some '\n'
    · rw [if_pos hg] at h; omega
    · rw [if_neg hg]
      rw [if_neg hg] at h
      exact ih (by omega)

theorem countNL_eq_zero (input : List Char) :
    ∀ (pos : Nat), lineStart input pos = 0 → countNL input pos = 0 := by
  intro pos
  induction pos with
  | zero => intro _; simp [countNL]
  | succ p ih =>
    intro h
    rw [lineStart] at h
    rw [countNL_succ]
    by_cases hg : input[p]? = some '\n'
    · rw [if_pos hg] at h; omega
    · rw [if_neg hg] at h
      rw [if_neg hg]
      have := ih h
      omega

theorem lineStart_nl (input : List Char) :
    ∀ (pos k : Nat), lineStart input pos = k + 1 → input[k]? = some '\n' := by
  intro pos
  induction pos with
  | zero => intro k h; simp [lineStart] at h
  | succ p ih =>
    intro k h
    rw [lineStart] at h
    by_cases hg : input[p]? = some '\n'
    · rw [if_pos hg] at h
      have : k = p := by omega
      subst this
      exact hg
    · rw [if_neg hg] at h
      exact ih k h

theorem lineStart_no_nl (input : List Char) :
    ∀ (pos y : Nat), lineStart input pos ≤ y → y < pos →
      input[y]? ≠ some '\n' := by
  intro pos
  induction pos with
  | zero => intro y _ hy; omega
  | succ p ih =>
    intro y h1 h2
    rw [lineStart] at h1
    by_cases hg : input[p]? = some '\n'
    · rw [if_pos hg] at h1; omega
    · rw [if_neg hg] at h1
      by_cases hyp : y = p
      · subst hyp; exact hg
      · exact ih y h1 (by omega)

/-- Claim C8 (amended).  For every source not beginning with a newline and
every offset `pos` inside it, the reporter's line is the correct 1-based
physical line of `pos`; the column is the correct 1-based column when `pos`
lies on the first line, but on every later line it is the correct column plus
one (the reporter measures those columns from the preceding newline's offset,
so the first character of a later line gets column 2). -/
theorem claim_C8 (input : List Char) (pos : Nat)
    (h0 : input.head? ≠ some '\n') (hp : pos < input.length) :
    Logger.issuePos input pos =
      (specLine input pos,
       if countNL input pos = 0 then specCol input pos
       else specCol input pos + 1) := by
  cases input with
  | nil => simp at hp
  | cons c rest =>
    have hc : c ≠ '\n' := by
      intro h
      exact h0 (by rw [h]; rfl)
    have hcbeq : (c == '\n') = false := by simpa using hc
    have hcnt : (Logger.nlIdxAux rest 1).countP (fun z => decide (z < pos)) =
        countNL (c :: rest) pos := by
      cases pos with
      | zero =>
        rw [List.countP_eq_zero.mpr (by intro a ha; simp)]
        simp [countNL]
      | succ q =>
        have h3 := nlIdxAux_countP rest 1 q
        simp only [show (1 : Nat) + q = q + 1 from by omega] at h3
        rw [h3]
        unfold countNL
        rw [List.take_succ_cons, List.countP_cons]
        simp [hcbeq]
    have hsorted : ((0 : Nat) :: Logger.nlIdxAux rest 1).Sorted (· < ·) := by
      refine List.sorted_cons.mpr ⟨fun b hb => ?_, nlIdxAux_sorted rest 1⟩
      have := nlIdxAux_ge rest 1 b hb
      omega
    have hindex : Logger.indexInput (c :: rest) = 0 :: Logger.nlIdxAux rest 1 := by
      simp [Logger.indexInput]
    have hline : Logger.posToLine (c :: rest) pos = 1 + countNL (c :: rest) pos := by
      unfold Logger.posToLine
      rw [hindex]
      rw [posToLineAux_count (Logger.nlIdxAux rest 1) 0 pos 1 hsorted (Nat.zero_le _)]
      rw [hcnt]
    simp only [Logger.issuePos]
    rw [hline, hindex]
    have hsub : 1 + countNL (c :: rest) pos - 1 = countNL (c :: rest) pos := by omega
    rw [hsub]
    by_cases hz : countNL (c :: rest) pos = 0
    · rw [if_pos hz, hz]
      have hls : lineStart (c :: rest) pos = 0 := lineStart_eq_zero _ pos hz
      simp [specLine, specCol, hz, hls]
    · rw [if_neg hz]
      obtain ⟨m, hm⟩ : ∃ m, countNL (c :: rest) pos = m + 1 :=
        ⟨countNL (c :: rest) pos - 1, by omega⟩
      have hls1 : 1 ≤ lineStart (c :: rest) pos := by
        by_contra h'
        push_neg at h'
        have : lineStart (c :: rest) pos = 0 := by omega
        exact hz (countNL_eq_zero _ pos this)
      have hlsx : lineStart (c :: rest) pos = (lineStart (c :: rest) pos - 1) + 1 := by
        omega
      have hnlx : (c :: rest)[lineStart (c :: rest) pos - 1]? = some '\n' :=
        lineStart_nl (c :: rest) pos _ hlsx
      have hxpos : lineStart (c :: rest) pos - 1 < pos := by
        have := lineStart_le (c :: rest) pos
        omega
      have hx1 : 1 ≤ lineStart (c :: rest) pos - 1 := by
        by_contra h'
        push_neg at h'
        have hx0 : lineStart (c :: rest) pos - 1 = 0 := by omega
        rw [hx0] at hnlx
        simp at hnlx
        exact hc hnlx
      have hxmem : lineStart (c :: rest) pos - 1 ∈ Logger.nlIdxAux rest 1 := by
        have hlen : lineStart (c :: rest) pos - 1 - 1 < rest.length := by
          have hplen : pos < rest.length + 1 := by simpa using hp
          omega
        have hget : rest[lineStart (c :: rest) pos - 1 - 1]? = some '\n' := by
          have hrw : lineStart (c :: rest) pos - 1 =
              (lineStart (c :: rest) pos - 1 - 1) + 1 := by omega
          rw [hrw] at hnlx
          simpa using hnlx
        have := nlIdxAux_mem_of rest 1 _ hlen hget
        have hrw2 : 1 + (lineStart (c :: rest) pos - 1 - 1) =
            lineStart (c :: rest) pos - 1 := by omega
        rwa [hrw2] at this
      have hmax : ∀ y ∈ Logger.nlIdxAux rest 1, y < pos →
          y ≤ lineStart (c :: rest) pos - 1 := by
        intro y hy hylt
        obtain ⟨hy1, hylen, hyg⟩ := nlIdxAux_mem_nl rest 1 y hy
        by_contra h'
        push_neg at h'
        have hyget : (c :: rest)[y]? = some '\n' := by
          have hrw : y = (y - 1) + 1 := by omega
          rw [hrw]
          simpa using hyg
        exact lineStart_no_nl (c :: rest) pos y (by omega) hylt hyget
      have hget := sorted_getD_countP (Logger.nlIdxAux rest 1) pos
        (lineStart (c :: rest) pos - 1) (nlIdxAux_sorted rest 1) hxmem hxpos hmax
      rw [hcnt, hm] at hget
      simp only [Nat.add_sub_cancel] at hget
      rw [hm, List.getD_cons_succ, hget]
      have hcol : pos - (lineStart (c :: rest) pos - 1) + 1 =
          specCol (c :: rest) pos + 1 := by
        unfold specCol
        have := lineStart_le (c :: rest) pos
        omega
      rw [hcol]
      have hfst : 1 + countNL (c :: rest) pos = specLine (c :: rest) pos := rfl
      rw [hm] at hfst
      rw [hfst]

/-- Claim C8, witness: the instantiation at `a\nb`, offset 2 (line 2, where
the reporter's column is the true column plus one). -/
theorem claim_C8_witness :
    Logger.issuePos ['a', '\n', 'b'] 2 =
      (specLine ['a', '\n', 'b'] 2,
       if countNL ['a', '\n', 'b'] 2 = 0 then specCol ['a', '\n', 'b'] 2
       else specCol ['a', '\n', 'b'] 2 + 1) :=
  claim_C8 ['a', '\n', 'b'] 2 (by decide) (by decide)

/-- Claim C8, counterexample.  In `a\nb`, offset 2 is the first character of
physical line 2, so its 1-based column is 1; the reporter computes column 2
(it measures columns on later lines from the preceding newline's offset). -/
theorem claim_C8_cex :
    Logger.issuePos ['a', '\n', 'b'] 2 = (2, 2) ∧
      ((2, 2) : Nat × Nat) ≠ (2, 1) := by
  decide

/-- Claim C9.  `Tokenizer::new` (and hence `Parser::new`) panics — modelled as
`none` — exactly on the empty input; on any non-empty input construction
succeeds. -/
theorem claim_C9 :
    Tokenizer.new [] = none ∧ Parser.new [] = none ∧
      ∀ (c : Char) (l : List Char),
        (Tokenizer.new (c :: l)).isSome ∧ (Parser.new (c :: l)).isSome := by
  refine ⟨rfl, rfl, fun c l => ⟨rfl, ?_⟩⟩
  simp [Parser.new, Tokenizer.new]

/-- Claim C9, witness: construction succeeds on the one-character input `x`. -/
theorem claim_C9_witness :
    (Tokenizer.new ['x']).isSome ∧ (Parser.new ['x']).isSome :=
  claim_C9.2.2 'x' []

/-- Claim C3 (amended).  A token at module scope that matches no production
(not `let`, not `import`, not an identifier) is silently consumed by the
catch-all arm of `parse_module` and parsing continues with the next token; no
`SyntaxError` is raised for it. -/
theorem claim_C3 (p : Parser) (tok : Token) (n : Nat) (name : String) (start : Nat)
    (h : p.current = some (.ok tok))
    (h1 : tok.con ≠ .Let) (h2 : tok.con ≠ .Import)
    (h3 : tok.con.isIdentTok = false) :
    Parser.parseModule (n + 1) name start p =
      Parser.parseModule n name start p.consumeToken := by
  obtain ⟨loc, con⟩ := tok
  cases con <;>
    simp_all [Parser.parseModule, Parser.unwrapCurrentOrNone, TokenContent.isIdentTok]

/-- Claim C3, witness: one loop step on a pending `NumberLiteral` token. -/
theorem claim_C3_witness :
    Parser.parseModule 1 "m" 0
        ⟨⟨[], none, 2, 0, none⟩, none, some (.ok ⟨⟨0, 2⟩, .Literal (.NumberLiteral "42")⟩)⟩ =
      Parser.parseModule 0 "m" 0
        (Parser.consumeToken
          ⟨⟨[], none, 2, 0, none⟩, none, some (.ok ⟨⟨0, 2⟩, .Literal (.NumberLiteral "42")⟩)⟩) :=
  claim_C3 _ _ 0 "m" 0 rfl (by decide) (by decide) (by decide)

/-- Claim C6.  When the token after `import` is neither a string literal nor
an identifier (the start of a namespace path), `parse_module` — and hence
`parse_all`, which propagates the first error — fails with `SyntaxError` at
the `import` token's recorded location.  (`try_parsing_string_literal` and
`try_parsing_namespace` are modelled from the spec, being absent from the
sources.) -/
theorem claim_C6 (p : Parser) (tok tok2 : Token) (n : Nat) (name : String) (start : Nat)
    (h : p.current = some (.ok tok)) (hi : tok.con = .Import)
    (h2 : p.consumeToken.current = some (.ok tok2))
    (hs : tok2.con.isStringLitTok = false)
    (hid : tok2.con.isIdentTok = false) :
    Parser.parseModule (n + 1) name start p =
      some (.error (.SyntaxError tok.loc.toLoc)) := by
  obtain ⟨loc, con⟩ := tok
  simp only at hi
  subst hi
  obtain ⟨loc2, con2⟩ := tok2
  cases con2 <;>
    first
    | (rename_i l; cases l <;>
        simp_all [Parser.parseModule, Parser.unwrapCurrentOrNone,
          Parser.tryParsingStringLiteralModel, Parser.tryParsingNamespaceModel,
          Parser.unwrapCurrent, TokenContent.isStringLitTok, TokenContent.isIdentTok,
          TokenLoc.toLoc])
    | simp_all [Parser.parseModule, Parser.unwrapCurrentOrNone,
        Parser.tryParsingStringLiteralModel, Parser.tryParsingNamespaceModel,
        Parser.unwrapCurrent, TokenContent.isStringLitTok, TokenContent.isIdentTok,
        TokenLoc.toLoc]

/-- Claim C6, witness: the parser state primed on `import <`; the token after
`import` is `<`, and the step yields `SyntaxError` at the import token's
location `[0, 7)`. -/
theorem claim_C6_witness :
    Parser.parseModule 1 "<file>" 0
        ⟨⟨['<'], none, 6, 0, some ' '⟩, none, some (.ok ⟨⟨0, 7⟩, .Import⟩)⟩ =
      some (.error (.SyntaxError ⟨0, 7⟩)) :=
  claim_C6 _ ⟨⟨0, 7⟩, .Import⟩ ⟨⟨7, 1⟩, .TagAngleBracketLeft⟩ 0 "<file>" 0 rfl rfl
    (by decide) (by decide) (by decide)

theorem lexIdentAux_hard_no_dash (fuel : Nat) :
    ∀ (t t' : Tokenizer) (word w : String) (c : Char),
      Tokenizer.lexIdentAux fuel t word = (t', some w) →
      Tokenizer.rem t < fuel →
      t'.current = some c → c.isWhitespace = false →
      Tokenizer.isIdentChar c = false →
      Tokenizer.endsDash w = false := by
  induction fuel with
  | zero => intro t t' word w c _ hf _ _ _; omega
  | succ n ih =>
    intro t t' word w c h hf hc hw hi
    rw [Tokenizer.lexIdentAux] at h
    cases ht : t.current with
    | none =>
      rw [ht] at h
      obtain ⟨h1, h2⟩ := Prod.mk.injEq .. ▸ h
      rw [← h1] at hc
      rw [ht] at hc
      exact absurd hc (by simp)
    | some d =>
      rw [ht] at h
      by_cases hd : d.isWhitespace
      · simp only [hd, if_true] at h
        obtain ⟨h1, h2⟩ := Prod.mk.injEq .. ▸ h
        rw [← h1] at hc
        rw [ht] at hc
        cases hc
        simp [hd] at hw
      · simp only [hd, if_false, Bool.false_eq_true] at h
        by_cases hic : Tokenizer.isIdentChar d
        · simp only [hic, if_true] at h
          refine ih _ _ _ _ _ h ?_ hc hw hi
          have := Tokenizer.rem_consumeChar_lt t (by simp [ht])
          omega
        · simp only [hic, if_false, Bool.false_eq_true] at h
          by_cases he : Tokenizer.endsDash word
          · simp [he] at h
          · simp only [he, if_false, Bool.false_eq_true] at h
            obtain ⟨h1, h2⟩ := Prod.mk.injEq .. ▸ h
            cases h2
            simpa using he

theorem lexIdentifierGo_no_dash (t : Tokenizer) (loc : TokenLoc) (word : String)
    (t' : Tokenizer) (tok : Token) (c : Char) (s : String)
    (h : Tokenizer.lexIdentifierGo t loc word = (t', .ok tok))
    (hc : t'.current = some c) (hw : c.isWhitespace = false)
    (hi : Tokenizer.isIdentChar c = false)
    (hs : tok.con = .Identifier s) :
    Tokenizer.endsDash s = false := by
  simp only [Tokenizer.lexIdentifierGo] at h
  cases hr : Tokenizer.lexIdentAux (Tokenizer.rem t + 1) t word with
  | mk t2 res =>
    rw [hr] at h
    cases res with
    | none => simp at h
    | some w =>
      simp only at h
      obtain ⟨h1, h2⟩ := Prod.mk.injEq .. ▸ h
      injection h2 with h3
      subst h3
      simp only at hs
      have hsw : s = w := by
        have := hs
        simp only [TokenContent.Identifier.injEq] at this
        exact this.symm
      subst hsw
      exact lexIdentAux_hard_no_dash (Tokenizer.rem t + 1) t t2 word s c hr
        (Nat.lt_succ_self _) (h1 ▸ hc) hw hi

/-- Claim C7 (amended).  An `Identifier` token whose run is terminated by a
non-whitespace, non-identifier character never ends in `-` (the lexer errors
instead); runs terminated by whitespace or end of input skip that check and
may end in `-`. -/
theorem claim_C7 (t t' : Tokenizer) (tok : Token) (c : Char) (s : String)
    (h : Tokenizer.lexIdentifier t = (t', .ok tok))
    (hc : t'.current = some c) (hw : c.isWhitespace = false)
    (hi : Tokenizer.isIdentChar c = false)
    (hs : tok.con = .Identifier s) :
    Tokenizer.endsDash s = false := by
  obtain ⟨itr, pend, idx, full, cur⟩ := t
  cases pend with
  | none => exact lexIdentifierGo_no_dash _ _ _ _ _ _ _ h hc hw hi hs
  | some p =>
    obtain ⟨ploc, pcon⟩ := p
    cases pcon <;>
      first
      | exact lexIdentifierGo_no_dash _ _ _ _ _ _ _ h hc hw hi hs
      | exact TokenResult.noConfusion (congrArg Prod.snd h)

/-- Claim C7, witness: the run `ab` terminated by `(` yields an identifier not
ending in `-`. -/
theorem claim_C7_witness : Tokenizer.endsDash "ab" = false :=
  claim_C7 ⟨['b', '('], none, 0, 0, some 'a'⟩ ⟨[], none, 2, 0, some '('⟩
    ⟨⟨0, 2⟩, .Identifier "ab"⟩ '(' "ab" (by decide) rfl (by decide) (by decide) rfl

theorem tryFromStr_keywordLen (w : String) (con : TokenContent)
    (h : TokenContent.tryFromStr w = some con) : keywordLen con = w.length := by
  unfold TokenContent.tryFromStr at h
  cases hf : reservedTable.find? (fun e => e.1 == w) with
  | none => rw [hf] at h; cases h
  | some a =>
    rw [hf] at h
    injection h with h2
    subst h2
    have hmem := List.mem_of_find?_eq_some hf
    have hp := List.find?_some hf
    have hw : a.1 = w := by simpa using hp
    subst hw
    have hall : ∀ e ∈ reservedTable, keywordLen e.2 = e.1.length := by decide
    exact hall a hmem

theorem rem_consumeChar_pred (t : Tokenizer) (h : t.current.isSome) :
    Tokenizer.rem (Tokenizer.consumeChar t) + 1 = Tokenizer.rem t := by
  cases t with
  | mk itr pending idx full cur =>
    cases itr <;> simp_all [Tokenizer.rem, Tokenizer.consumeChar, List.head?]

theorem consumeChar_idx (t : Tokenizer) (h : t.current_idx + 1 < MAX_IDX_VALUE) :
    (Tokenizer.consumeChar t).current_idx = t.current_idx + 1 := by
  simp [Tokenizer.consumeChar, Nat.ne_of_lt h]

theorem lexReservedAux_len (fuel : Nat) :
    ∀ (t t' : Tokenizer) (word : String) (loc tokloc : TokenLoc) (con : TokenContent),
      Tokenizer.lexReservedAux fuel t word loc = (t', some (.ok ⟨tokloc, con⟩)) →
      t.current_idx = loc.starts_at + word.length →
      t.current_idx + Tokenizer.rem t < MAX_IDX_VALUE →
      tokloc.len = keywordLen con + 1 := by
  induction fuel with
  | zero =>
    intro t t' word loc tokloc con h _ _
    exact Option.noConfusion (congrArg Prod.snd h)
  | succ n ih =>
    intro t t' word loc tokloc con h hinv hwf
    rw [Tokenizer.lexReservedAux] at h
    cases ht : t.current with
    | none =>
      rw [ht] at h
      exact Option.noConfusion (congrArg Prod.snd h)
    | some c =>
      rw [ht] at h
      have hrem : Tokenizer.rem (Tokenizer.consumeChar t) + 1 = Tokenizer.rem t :=
        rem_consumeChar_pred t (by simp [ht])
      have hlt : t.current_idx + 1 < MAX_IDX_VALUE := by omega
      have hidx : (Tokenizer.consumeChar t).current_idx = t.current_idx + 1 :=
        consumeChar_idx t hlt
      by_cases ha : c.isAlpha
      · simp only [ha, if_true] at h
        cases htf : TokenContent.tryFromStr (word.push c) with
        | some con2 =>
          rw [htf] at h
          simp only at h
          obtain ⟨h1, h2⟩ := Prod.mk.injEq .. ▸ h
          injection h2 with h2
          injection h2 with h2
          injection h2 with h2a h2b
          have hkw := tryFromStr_keywordLen _ _ htf
          rw [String.length_push] at hkw
          subst h2b
          rw [← h2a]
          simp only [hidx]
          omega
        | none =>
          rw [htf] at h
          simp only at h
          refine ih _ _ _ _ _ _ h ?_ ?_
          · rw [hidx, String.length_push]
            omega
          · omega
      · simp only [ha, if_false, Bool.false_eq_true] at h
        exact Option.noConfusion (congrArg Prod.snd h)

theorem lexIdentAux_idx (fuel : Nat) :
    ∀ (t t' : Tokenizer) (word w : String),
      Tokenizer.lexIdentAux fuel t word = (t', some w) →
      t.current_idx + Tokenizer.rem t < MAX_IDX_VALUE →
      word.length ≤ w.length ∧
        t'.current_idx = t.current_idx + (w.length - word.length) := by
  induction fuel with
  | zero =>
    intro t t' word w h _
    obtain ⟨h1, h2⟩ := Prod.mk.injEq .. ▸ h
    injection h2 with h2
    subst h2
    subst h1
    omega
  | succ n ih =>
    intro t t' word w h hwf
    rw [Tokenizer.lexIdentAux] at h
    cases ht : t.current with
    | none =>
      rw [ht] at h
      obtain ⟨h1, h2⟩ := Prod.mk.injEq .. ▸ h
      injection h2 with h2
      subst h2
      subst h1
      omega
    | some c =>
      rw [ht] at h
      have hrem : Tokenizer.rem (Tokenizer.consumeChar t) + 1 = Tokenizer.rem t :=
        rem_consumeChar_pred t (by simp [ht])
      have hlt : t.current_idx + 1 < MAX_IDX_VALUE := by omega
      have hidx : (Tokenizer.consumeChar t).current_idx = t.current_idx + 1 :=
        consumeChar_idx t hlt
      by_cases hd : c.isWhitespace
      · simp only [hd, if_true] at h
        obtain ⟨h1, h2⟩ := Prod.mk.injEq .. ▸ h
        injection h2 with h2
        subst h2
        subst h1
        omega
      · simp only [hd, if_false, Bool.false_eq_true] at h
        by_cases hic : Tokenizer.isIdentChar c
        · simp only [hic, if_true] at h
          obtain ⟨hle, heq⟩ := ih _ _ _ _ h (by omega)
          rw [String.length_push] at hle heq
          rw [hidx] at heq
          exact ⟨by omega, by omega⟩
        · simp only [hic, if_false, Bool.false_eq_true] at h
          by_cases he : Tokenizer.endsDash word
          · simp [he] at h
          · simp only [he, if_false, Bool.false_eq_true] at h
            obtain ⟨h1, h2⟩ := Prod.mk.injEq .. ▸ h
            injection h2 with h2
            subst h2
            subst h1
            omega

theorem lexIdentifierGo_len (t t' : Tokenizer) (loc tokloc : TokenLoc)
    (word s : String)
    (h : Tokenizer.lexIdentifierGo t loc word = (t', .ok ⟨tokloc, .Identifier s⟩))
    (hinv : t.current_idx = loc.starts_at + word.length)
    (hwf : t.current_idx + Tokenizer.rem t < MAX_IDX_VALUE) :
    tokloc.len = s.length := by
  simp only [Tokenizer.lexIdentifierGo] at h
  cases hr : Tokenizer.lexIdentAux (Tokenizer.rem t + 1) t word with
  | mk t2 res =>
    rw [hr] at h
    cases res with
    | none => simp at h
    | some w =>
      simp only at h
      obtain ⟨h1, h2⟩ := Prod.mk.injEq .. ▸ h
      injection h2 with h2
      injection h2 with h2a h2b
      injection h2b with h2b
      subst h2b
      obtain ⟨hle, heq⟩ := lexIdentAux_idx _ _ _ _ _ hr hwf
      rw [← h2a]
      simp only
      rw [heq, hinv]
      omega

theorem lexNumberAux_len (fuel : Nat) :
    ∀ (t : Tokenizer) (lit : String) (len : Nat),
      len = lit.length →
      (Tokenizer.lexNumberAux fuel t lit len).2.2 =
        (Tokenizer.lexNumberAux fuel t lit len).2.1.length := by
  induction fuel with
  | zero => intro t lit len h; simpa [Tokenizer.lexNumberAux] using h
  | succ n ih =>
    intro t lit len h
    rw [Tokenizer.lexNumberAux]
    cases ht : t.current with
    | none => simpa using h
    | some c =>
      by_cases hd : c.isDigit
      · simp only [hd, if_true]
        exact ih _ _ _ (by rw [String.length_push]; omega)
      · simpa [hd] using h

theorem lexStringAux_len (fuel : Nat) :
    ∀ (t t' : Tokenizer) (lit : String) (starts : Nat) (tokloc : TokenLoc) (s : String),
      Tokenizer.lexStringAux fuel t lit starts =
        (t', .ok ⟨tokloc, .Literal (.StringLiteral s)⟩) →
      t.current_idx = starts + lit.length →
      t.current_idx + Tokenizer.rem t < MAX_IDX_VALUE →
      tokloc.len = s.length := by
  induction fuel with
  | zero =>
    intro t t' lit starts tokloc s h _ _
    rw [Tokenizer.lexStringAux] at h
    exact TokenResult.noConfusion (congrArg Prod.snd h)
  | succ n ih =>
    intro t t' lit starts tokloc s h hinv hwf
    rw [Tokenizer.lexStringAux] at h
    cases ht : t.current with
    | none =>
      rw [ht] at h
      exact TokenResult.noConfusion (congrArg Prod.snd h)
    | some c =>
      rw [ht] at h
      have hrem : Tokenizer.rem (Tokenizer.consumeChar t) + 1 = Tokenizer.rem t :=
        rem_consumeChar_pred t (by simp [ht])
      have hlt : t.current_idx + 1 < MAX_IDX_VALUE := by omega
      have hidx : (Tokenizer.consumeChar t).current_idx = t.current_idx + 1 :=
        consumeChar_idx t hlt
      by_cases hq : c = '"'
      · simp only [hq, if_true] at h
        obtain ⟨h1, h2⟩ := Prod.mk.injEq .. ▸ h
        injection h2 with h2
        injection h2 with h2a h2b
        injection h2b with h2b
        injection h2b with h2b
        subst h2b
        rw [← h2a]
        simp only [hidx]
        rw [String.length_push]
        omega
      · simp only [hq, if_false] at h
        refine ih _ _ _ _ _ _ h ?_ ?_
        · rw [hidx, String.length_push]
          omega
        · omega

/-- Claim C10 (amended).  Reserved-word tokens get `loc.len` equal to the
keyword's spelling length plus one; `Identifier`, `NumberLiteral` and
`StringLiteral` tokens get `loc.len` equal to their lexeme's character count
(which equals the byte length exactly when the lexeme is ASCII — see the
counterexample for a non-ASCII string literal).  Lengths are character counts
because the cursor advances once per `char`. -/
theorem claim_C10 :
    (∀ (t t' : Tokenizer) (tokloc : TokenLoc) (con : TokenContent),
        Tokenizer.lexReserved t = (t', some (.ok ⟨tokloc, con⟩)) →
        t.current_idx + Tokenizer.rem t < MAX_IDX_VALUE →
        tokloc.len = keywordLen con + 1) ∧
    (∀ (t t' : Tokenizer) (tokloc : TokenLoc) (s : String),
        Tokenizer.lexIdentifier t = (t', .ok ⟨tokloc, .Identifier s⟩) →
        (∀ p, t.pending = some p →
          ∃ w, p.con = .Identifier w ∧
            t.current_idx = p.loc.starts_at + w.length) →
        t.current_idx + Tokenizer.rem t < MAX_IDX_VALUE →
        tokloc.len = s.length) ∧
    (∀ (t t' : Tokenizer) (tokloc : TokenLoc) (s : String),
        Tokenizer.lexNumberLiteral t = (t', .ok ⟨tokloc, .Literal (.NumberLiteral s)⟩) →
        tokloc.len = s.length) ∧
    (∀ (t t' : Tokenizer) (tokloc : TokenLoc) (s : String),
        Tokenizer.lexStringLiteral t = (t', .ok ⟨tokloc, .Literal (.StringLiteral s)⟩) →
        t.current_idx + Tokenizer.rem t < MAX_IDX_VALUE →
        tokloc.len = s.length) := by
  refine ⟨?_, ?_, ?_, ?_⟩
  · intro t t' tokloc con h hwf
    exact lexReservedAux_len _ _ _ _ _ _ _ h (by simp) hwf
  · intro t t' tokloc s h hp hwf
    obtain ⟨itr, pend, idx, full, cur⟩ := t
    cases pend with
    | none => exact lexIdentifierGo_len _ _ _ _ _ _ h (by simp) hwf
    | some p =>
      obtain ⟨w0, hw0, hidx0⟩ := hp p rfl
      obtain ⟨ploc, pcon⟩ := p
      simp only at hw0
      subst hw0
      exact lexIdentifierGo_len _ _ _ _ _ _ h (by simpa using hidx0) (by simpa using hwf)
  · intro t t' tokloc s h
    simp only [Tokenizer.lexNumberLiteral] at h
    obtain ⟨h1, h2⟩ := Prod.mk.injEq .. ▸ h
    injection h2 with h2
    injection h2 with h2a h2b
    injection h2b with h2b
    injection h2b with h2b
    subst h2b
    rw [← h2a]
    simp only
    exact lexNumberAux_len _ _ _ _ (by simp)
  · intro t t' tokloc s h hwf
    rw [Tokenizer.lexStringLiteral] at h
    by_cases hq : t.current = some '"'
    · rw [if_pos hq] at h
      have hrem : Tokenizer.rem (Tokenizer.consumeChar t) + 1 = Tokenizer.rem t :=
        rem_consumeChar_pred t (by simp [hq])
      have hlt : t.current_idx + 1 < MAX_IDX_VALUE := by omega
      have hidx : (Tokenizer.consumeChar t).current_idx = t.current_idx + 1 :=
        consumeChar_idx t hlt
      refine lexStringAux_len _ _ _ _ _ _ _ h ?_ ?_
      · rw [hidx, String.length_push, String.length_empty]
      · rw [hidx]
        omega
    · rw [if_neg hq] at h
      exact TokenResult.noConfusion (congrArg Prod.snd h)

/-- Claim C10, witness: `let ` gets length 4 (spelling 3 plus one); the
identifier `a`, the number `7` and the string `""` get their exact character
counts. -/
theorem claim_C10_witness :
    TokenLoc.len ⟨0, 4⟩ = keywordLen .Let + 1 ∧
      TokenLoc.len ⟨0, 1⟩ = String.length "a" ∧
      TokenLoc.len ⟨0, 1⟩ = String.length "7" ∧
      TokenLoc.len ⟨0, 2⟩ = String.length "\"\"" :=
  ⟨claim_C10.1 ⟨['e', 't', ' '], none, 0, 0, some 'l'⟩ ⟨[], none, 3, 0, some ' '⟩
      ⟨0, 4⟩ .Let (by decide) (by decide),
    claim_C10.2.1 ⟨['('], none, 0, 0, some 'a'⟩ ⟨[], none, 1, 0, some '('⟩
      ⟨0, 1⟩ "a" (by decide) (fun p hp => Option.noConfusion hp) (by decide),
    claim_C10.2.2.1 ⟨[], none, 0, 0, some '7'⟩ ⟨[], none, 1, 0, none⟩
      ⟨0, 1⟩ "7" (by decide),
    claim_C10.2.2.2 ⟨['"'], none, 0, 0, some '"'⟩ ⟨[], none, 2, 0, none⟩
      ⟨0, 2⟩ "\"\"" (by decide) (by decide)⟩

/-- Claim C10, counterexample.  The string literal `"é"` (é is a two-byte
character) gets `loc.len = 3` — the lexer counts characters — while the
lexeme's byte length is 4, so the claimed "exact lexeme byte length" fails. -/
theorem claim_C10_cex :
    tokenizeAll "\"é\"".toList =
        [.ok ⟨⟨0, 3⟩, .Literal (.StringLiteral "\"é\"")⟩] ∧
      lexemeBytes "\"é\"" = 4 ∧ (3 : Nat) ≠ 4 := by
  refine ⟨by decide, by decide, by decide⟩

end Ribbon
